import Mathlib

/-!
Verification development for the actuator-group core of the repository
(`omni/isaac/orbit/actuators/actuator_base.py`).

The Python source is shallowly embedded: the regular-expression machinery
used through `re.fullmatch` is modelled by a small regex language with
whole-word (full-match) matching semantics, torch tensors of shape
`(num_envs, num_joints)` become lists of rows of rationals, Python's
`dict` (which iterates in insertion order) becomes an association list,
and construction-time exceptions become `Except` values.
-/

namespace Orbit

/-- Abstract syntax of the pattern language: the subset of Python regular
expressions exercised by the actuator configuration (literal characters,
the wildcard dot, Kleene star, alternation and grouping).  `fail` denotes
the empty language; it is never produced by the pattern parser and only
arises internally from derivatives. -/
inductive Regex where
  | fail : Regex
  | eps : Regex
  | char : Char → Regex
  | any : Regex
  | cat : Regex → Regex → Regex
  | alt : Regex → Regex → Regex
  | star : Regex → Regex
deriving DecidableEq

/-- Whether the regex accepts the empty word. -/
def nullable : Regex → Bool
  | .fail => false
  | .eps => true
  | .char _ => false
  | .any => false
  | .cat r₁ r₂ => nullable r₁ && nullable r₂
  | .alt r₁ r₂ => nullable r₁ || nullable r₂
  | .star _ => true

/-- Brzozowski derivative of a regex with respect to one character. -/
def deriv (c : Char) : Regex → Regex
  | .fail => .fail
  | .eps => .fail
  | .char a => if a = c then .eps else .fail
  | .any => .eps
  | .cat r₁ r₂ =>
    if nullable r₁ then .alt (.cat (deriv c r₁) r₂) (deriv c r₂)
    else .cat (deriv c r₁) r₂
  | .alt r₁ r₂ => .alt (deriv c r₁) (deriv c r₂)
  | .star r => .cat (deriv c r) (.star r)

/-- Executable whole-word matching: the model of Python's `re.fullmatch`
returning a match object (here: `true`).  The word must be consumed in
full; matching a proper substring is not enough. -/
def rmatch (r : Regex) (w : List Char) : Bool :=
  nullable (w.foldl (fun r c => deriv c r) r)

/-- Declarative whole-word matching semantics: `RMatch r w` holds exactly
when the entire word `w` belongs to the language of `r`. -/
inductive RMatch : Regex → List Char → Prop where
  | eps : RMatch .eps []
  | char (c : Char) : RMatch (.char c) [c]
  | any (c : Char) : RMatch .any [c]
  | cat {r₁ r₂ w₁ w₂} : RMatch r₁ w₁ → RMatch r₂ w₂ →
      RMatch (.cat r₁ r₂) (w₁ ++ w₂)
  | altL {r₁ r₂ w} : RMatch r₁ w → RMatch (.alt r₁ r₂) w
  | altR {r₁ r₂ w} : RMatch r₂ w → RMatch (.alt r₁ r₂) w
  | starNil {r} : RMatch (.star r) []
  | starCons {r w₁ w₂} : RMatch r w₁ → RMatch (.star r) w₂ →
      RMatch (.star r) (w₁ ++ w₂)

theorem nullable_of_rmatch_eq_nil {r : Regex} {w : List Char}
    (h : RMatch r w) : w = [] → nullable r = true := by
  induction h with
  | eps => intro _; rfl
  | char c => intro h; cases h
  | any c => intro h; cases h
  | cat h₁ h₂ ih₁ ih₂ =>
    intro h
    rcases List.append_eq_nil.mp h with ⟨h₁', h₂'⟩
    simp [nullable, ih₁ h₁', ih₂ h₂']
  | altL h ih => intro h'; simp [nullable, ih h']
  | altR h ih => intro h'; simp [nullable, ih h']
  | starNil => intro _; rfl
  | starCons h₁ h₂ ih₁ ih₂ => intro _; rfl

theorem nullable_of_rmatch_nil {r : Regex} (h : RMatch r []) :
    nullable r = true :=
  nullable_of_rmatch_eq_nil h rfl

theorem rmatch_nil_of_nullable : ∀ r : Regex, nullable r = true → RMatch r [] := by
  intro r
  induction r with
  | fail => intro h; simp [nullable] at h
  | eps => intro _; exact .eps
  | char a => intro h; simp [nullable] at h
  | any => intro h; simp [nullable] at h
  | cat r₁ r₂ ih₁ ih₂ =>
    intro h
    rw [nullable, Bool.and_eq_true] at h
    have := RMatch.cat (ih₁ h.1) (ih₂ h.2)
    simpa using this
  | alt r₁ r₂ ih₁ ih₂ =>
    intro h
    rw [nullable, Bool.or_eq_true] at h
    cases h with
    | inl h => exact .altL (ih₁ h)
    | inr h => exact .altR (ih₂ h)
  | star r ih => intro _; exact .starNil

theorem rmatch_cons_of_deriv :
    ∀ (r : Regex) (c : Char) (w : List Char),
      RMatch (deriv c r) w → RMatch r (c :: w) := by
  intro r
  induction r with
  | fail => intro c w h; cases h
  | eps => intro c w h; cases h
  | char a =>
    intro c w h
    rw [deriv] at h
    by_cases hac : a = c
    · rw [if_pos hac] at h
      cases h
      rw [hac]
      exact .char c
    · rw [if_neg hac] at h
      cases h
  | any =>
    intro c w h
    cases h
    exact .any c
  | cat r₁ r₂ ih₁ ih₂ =>
    intro c w h
    by_cases hn : nullable r₁ = true
    · rw [deriv, if_pos hn] at h
      cases h with
      | altL h' =>
        cases h' with
        | cat h₁ h₂ => simpa using RMatch.cat (ih₁ _ _ h₁) h₂
      | altR h' =>
        have h0 := rmatch_nil_of_nullable r₁ hn
        simpa using RMatch.cat h0 (ih₂ _ _ h')
    · rw [deriv, if_neg hn] at h
      cases h with
      | cat h₁ h₂ => simpa using RMatch.cat (ih₁ _ _ h₁) h₂
  | alt r₁ r₂ ih₁ ih₂ =>
    intro c w h
    rw [deriv] at h
    cases h with
    | altL h' => exact .altL (ih₁ _ _ h')
    | altR h' => exact .altR (ih₂ _ _ h')
  | star r ih =>
    intro c w h
    rw [deriv] at h
    cases h with
    | cat h₁ h₂ => simpa using RMatch.starCons (ih _ _ h₁) h₂

theorem deriv_of_rmatch_cons :
    ∀ {r : Regex} {w : List Char}, RMatch r w →
      ∀ (c : Char) (w' : List Char), w = c :: w' → RMatch (deriv c r) w' := by
  intro r w h
  induction h with
  | eps => intro c w' h; cases h
  | char a =>
    intro c w' h
    injection h with hac hw
    rw [deriv, if_pos hac, ← hw]
    exact .eps
  | any c₀ =>
    intro c w' h
    injection h with _ hw
    rw [deriv, ← hw]
    exact .eps
  | @cat r₁ r₂ w₁ w₂ h₁ h₂ ih₁ ih₂ =>
    intro c w' hw
    rcases w₁ with _ | ⟨a, w₁'⟩
    · have hn := nullable_of_rmatch_nil h₁
      rw [List.nil_append] at hw
      have hd := ih₂ c w' hw
      rw [deriv, if_pos hn]
      exact .altR hd
    · rw [List.cons_append] at hw
      injection hw with hac hw'
      rw [← hac]
      have hd := ih₁ a w₁' rfl
      by_cases hn : nullable r₁ = true
      · rw [deriv, if_pos hn, ← hw']
        exact .altL (.cat hd h₂)
      · rw [deriv, if_neg hn, ← hw']
        exact .cat hd h₂
  | altL h ih =>
    intro c w' hw
    rw [deriv]
    exact .altL (ih c w' hw)
  | altR h ih =>
    intro c w' hw
    rw [deriv]
    exact .altR (ih c w' hw)
  | starNil => intro c w' h; cases h
  | @starCons r w₁ w₂ h₁ h₂ ih₁ ih₂ =>
    intro c w' hw
    rcases w₁ with _ | ⟨a, w₁'⟩
    · rw [List.nil_append] at hw
      exact ih₂ c w' hw
    · rw [List.cons_append] at hw
      injection hw with hac hw'
      rw [← hac, deriv, ← hw']
      exact .cat (ih₁ a w₁' rfl) h₂

/-- Correctness of the executable matcher: `rmatch` decides exactly the
declarative whole-word semantics. -/
theorem rmatch_iff_RMatch : ∀ (w : List Char) (r : Regex),
    rmatch r w = true ↔ RMatch r w := by
  intro w
  induction w with
  | nil =>
    intro r
    exact ⟨rmatch_nil_of_nullable r, nullable_of_rmatch_nil⟩
  | cons c w ih =>
    intro r
    have hstep : rmatch r (c :: w) = rmatch (deriv c r) w := rfl
    rw [hstep, ih]
    constructor
    · exact fun h => rmatch_cons_of_deriv r c w h
    · exact fun h => deriv_of_rmatch_cons h c w rfl

/-- Helper of the pattern parser: append the pending atom (if any) to the
concatenation accumulated so far. -/
def flushCur (acc : Regex) : Option Regex → Regex
  | none => acc
  | some a => .cat acc a

/-- Helper of the pattern parser: close the current alternation branch. -/
def mergeAlt (altAcc : Option Regex) (r : Regex) : Regex :=
  match altAcc with
  | none => r
  | some a => .alt a r

/-- Characters of Python's regex language that the embedded subset does not
support; a pattern containing one is conservatively treated as not being a
syntactically valid match expression of the modelled subset. -/
def unsupportedChars : List Char := ['[', ']', '+', '?', '\\', '^', '$']

/-- One-pass parser for the pattern subset (literals, dot, star, alternation
and parenthesised groups), mirroring which strings Python's `re.compile`
accepts on that subset: a leading or doubled star, an unmatched parenthesis,
or an unsupported construct makes the pattern invalid.  The state carries a
stack of enclosing groups, the pending alternation, the concatenation
accumulated so far, the last atom (the target of a star) and a flag
recording whether that atom was just starred. -/
def parseLoop :
    List Char → List (Option Regex × Regex) → Option Regex → Regex →
      Option Regex → Bool → Option Regex
  | [], stack, altAcc, acc, cur, _ =>
    match stack with
    | [] => some (mergeAlt altAcc (flushCur acc cur))
    | _ :: _ => none
  | c :: rest, stack, altAcc, acc, cur, js =>
    if c = '*' then
      match cur, js with
      | some a, false => parseLoop rest stack altAcc acc (some (.star a)) true
      | _, _ => none
    else if c = '|' then
      parseLoop rest stack (some (mergeAlt altAcc (flushCur acc cur))) .eps none false
    else if c = '(' then
      parseLoop rest ((altAcc, flushCur acc cur) :: stack) none .eps none false
    else if c = ')' then
      match stack with
      | [] => none
      | (altAcc₀, acc₀) :: stack' =>
        parseLoop rest stack' altAcc₀ acc₀
          (some (mergeAlt altAcc (flushCur acc cur))) false
    else if c = '.' then
      parseLoop rest stack altAcc (flushCur acc cur) (some .any) false
    else if c ∈ unsupportedChars then none
    else parseLoop rest stack altAcc (flushCur acc cur) (some (.char c)) false

/-- Parse a configured name pattern.  `none` means the pattern is not a
syntactically valid match expression (Python's `re` would raise on it). -/
def parseRegex (s : String) : Option Regex :=
  parseLoop s.data [] none .eps none false

/-- The model of `re.fullmatch(pattern, name)` being a match: the pattern
must be valid and must match the entire joint name. -/
def fullmatch (pattern name : String) : Bool :=
  match parseRegex pattern with
  | some r => rmatch r name.data
  | none => false

/-- Error taxonomy of construction.  Modelled from the spec:
`ConfigurationError` is "raised when pattern resolution yields no joints,
when a pattern is syntactically invalid, or when a configured limit is
negative"; the source under `src/` defines no error class of its own, so
this type is the spec's construction-time error channel (an invalid
gain-map key makes the source's `re.fullmatch` raise, aborting
construction, which is modelled by the same channel). -/
inductive ConfigError where
  | emptyPatterns : ConfigError
  | invalidPattern : String → ConfigError
  | zeroJoints : ConfigError
deriving DecidableEq

/-- A scalar-or-unbounded limit; `inf` models `torch.inf` (positive
infinity, the class-level default of `effort_limit`/`velocity_limit`). -/
inductive Limit where
  | inf : Limit
  | fin : Rat → Limit
deriving DecidableEq

/-- The joint-index selection stored by the group: either the `Ellipsis`
sentinel meaning "all joints of the articulation", or an explicit index
list. -/
inductive DofIds where
  | all : DofIds
  | explicit : List Nat → DofIds
deriving DecidableEq

/-- The configured joint-name expression: the "all joints" sentinel or an
ordered list of name patterns (`cfg.dof_names_expr`). -/
inductive DofSelector where
  | all : DofSelector
  | exprs : List String → DofSelector
deriving DecidableEq

/-- An ordered pattern-to-optional-value map (a Python `dict`, which
iterates in insertion order). -/
abbrev Entries := List (String × Option Rat)

/-- The model of `ActuatorBaseCfg`: the fields of the configuration read by
`ActuatorBase.__init__`. -/
structure ActuatorBaseCfg where
  dof_names_expr : DofSelector
  effort_limit : Option Rat := none
  velocity_limit : Option Rat := none
  stiffness : Option Entries := none
  damping : Option Entries := none
deriving DecidableEq

/-- A `(num_envs, num_joints)` tensor of scalars: a list of `num_envs`
rows, each of length `num_joints`. -/
abbrev Mat := List (List Rat)

/-- `torch.zeros(num_envs, n)`. -/
def zerosMat (numEnvs n : Nat) : Mat :=
  List.replicate numEnvs (List.replicate n 0)

/-- The broadcast column assignment `buf[:, j] = v`. -/
def setCol (m : Mat) (j : Nat) (v : Rat) : Mat :=
  m.map (fun row => row.set j v)

/-- Read entry `(i, j)` of a buffer (out-of-range reads default to `0`;
all uses stay in range). -/
def matGet (m : Mat) (i j : Nat) : Rat :=
  (m.getD i []).getD j 0

/-- The buffer has shape `(numEnvs, n)`. -/
def matShape (m : Mat) (numEnvs n : Nat) : Prop :=
  m.length = numEnvs ∧ ∀ row ∈ m, row.length = n

/-- The model of `enumerate`: pair every element with its position,
starting at `i`. -/
def enumFromN (i : Nat) : List String → List (Nat × String)
  | [] => []
  | s :: rest => (i, s) :: enumFromN (i + 1) rest

/-- The inner loop of the gain overlay, for one joint: iterate one
pattern-to-value map in insertion order; every pattern that full-matches
the joint's name and carries a present value broadcasts that value onto
the joint's column; an invalid pattern makes `re.fullmatch` raise. -/
def applyMapToJoint (buf : Mat) (idx : Nat) (name : String) :
    Entries → Except ConfigError Mat
  | [] => .ok buf
  | (key, val) :: rest =>
    match parseRegex key with
    | none => .error (.invalidPattern key)
    | some r =>
      if rmatch r name.data then
        match val with
        | some v => applyMapToJoint (setCol buf idx v) idx name rest
        | none => applyMapToJoint buf idx name rest
      else applyMapToJoint buf idx name rest

/-- The `if self.cfg.stiffness is not None` guard of the overlay: an absent
map leaves the buffer untouched. -/
def applyOpt (cfgM : Option Entries) (buf : Mat) (idx : Nat) (nm : String) :
    Except ConfigError Mat :=
  match cfgM with
  | none => .ok buf
  | some es => applyMapToJoint buf idx nm es

/-- The joint loop of `ActuatorBase.__init__` (lines 77-89): for each
`(index, dof_name)` apply the stiffness map (if configured) and then the
damping map (if configured). -/
def applyGains (cfgS cfgD : Option Entries) :
    List (Nat × String) → Mat → Mat → Except ConfigError (Mat × Mat)
  | [], s, d => .ok (s, d)
  | (idx, nm) :: rest, s, d =>
    match applyOpt cfgS s idx nm with
    | .error e => .error e
    | .ok s' =>
      match applyOpt cfgD d idx nm with
      | .error e => .error e
      | .ok d' => applyGains cfgS cfgD rest s' d'

/-- The state of a constructed actuator group (the fields `ActuatorBase`
stores). -/
structure ActuatorBase where
  cfg : ActuatorBaseCfg
  numEnvs : Nat
  dofNames : List String
  dofIndices : DofIds
  computed_effort : Mat
  applied_effort : Mat
  effort_limit : Limit
  velocity_limit : Limit
  stiffness : Mat
  damping : Mat
deriving DecidableEq

/-- `num_joints`: the number of actuators in the group. -/
def numJoints (g : ActuatorBase) : Nat :=
  g.dofNames.length

/-- The limit parse of `ActuatorBase.__init__` (lines 72-75): the
configured value when present, else the class-level unbounded default
(positive infinity). -/
def limitOf : Option Rat → Limit
  | some v => Limit.fin v
  | none => Limit.inf

/-- The model of `ActuatorBase.__init__`: store the parameters, allocate
the four zero-filled buffers, parse the limits (configured value, else the
class-level unbounded default) and run the stiffness/damping overlays. -/
def initActuator (cfg : ActuatorBaseCfg) (dof_names : List String)
    (dof_ids : DofIds) (num_envs : Nat) : Except ConfigError ActuatorBase :=
  let n := dof_names.length
  let zero := zerosMat num_envs n
  let elimit := limitOf cfg.effort_limit
  let vlimit := limitOf cfg.velocity_limit
  match applyGains cfg.stiffness cfg.damping (enumFromN 0 dof_names) zero zero with
  | .error e => .error e
  | .ok (s, d) =>
    .ok { cfg := cfg, numEnvs := num_envs, dofNames := dof_names,
          dofIndices := dof_ids, computed_effort := zero,
          applied_effort := zero, effort_limit := elimit,
          velocity_limit := vlimit, stiffness := s, damping := d }

/-- Parse every pattern of a list, failing on the first invalid one. -/
def parseAll : List String → Except ConfigError (List Regex)
  | [] => .ok []
  | p :: rest =>
    match parseRegex p with
    | none => .error (.invalidPattern p)
    | some r =>
      match parseAll rest with
      | .error e => .error e
      | .ok rs => .ok (r :: rs)

/-- Modelled from the spec: the `PatternMatcher.resolve` contract (spec
section 4.1) and the zero-joint failure of `Construct` (spec section 4.3);
this resolution step lives in the articulation code outside `src/`.  Each
pattern is full-matched against every joint name, the result preserves the
articulation's joint order and de-duplicates joints (each joint is tested
once), the sentinel returns the full list verbatim, and the resolution
fails when the pattern list is empty, when a pattern is invalid, or when
zero joints result. -/
def resolve (sel : DofSelector) (full : List String) :
    Except ConfigError (List String × DofIds) :=
  match sel with
  | .all =>
    if full.isEmpty then .error .zeroJoints
    else .ok (full, .all)
  | .exprs ps =>
    if ps.isEmpty then .error .emptyPatterns
    else
      match parseAll ps with
      | .error e => .error e
      | .ok rs =>
        let hits := (enumFromN 0 full).filter
          (fun p => rs.any (fun r => rmatch r p.2.data))
        if hits.isEmpty then .error .zeroJoints
        else .ok (hits.map Prod.snd, .explicit (hits.map Prod.fst))

/-- Modelled from the spec: the `Construct` operation (spec section 4.3)
composes joint-set resolution (outside `src/`) with the in-source
`ActuatorBase.__init__`. -/
def constructGroup (cfg : ActuatorBaseCfg) (full : List String)
    (num_envs : Nat) : Except ConfigError ActuatorBase :=
  match resolve cfg.dof_names_expr full with
  | .error e => .error e
  | .ok (names, ids) => initActuator cfg names ids num_envs

/-- The spec's words for the gain overlay (spec section 4.2): the value of
the last entry, in the map's insertion order, whose pattern full-matches
the joint's name and whose value is present; `none` when no entry applies.
Used as the reference against which the code's overlay loop is compared. -/
def specLastMatch : Entries → String → Option Rat
  | [], _ => none
  | (key, val) :: rest, name =>
    match specLastMatch rest name with
    | some w => some w
    | none => if fullmatch key name && val.isSome then val else none

/-- The reference per-joint value of one optional gain map: the prior
buffer content when the map is absent or no entry applies, else the last
applying entry's value. -/
def overlayVal (cfgM : Option Entries) (name : String) (prior : Rat) : Rat :=
  match cfgM with
  | none => prior
  | some es => (specLastMatch es name).getD prior

/-- The joint indices the group reports: the stored list, with the
`Ellipsis` sentinel resolved to `list(range(self.num_joints))` exactly as
`ActuatorBase.__str__` does (lines 94-96). -/
def resolvedIndices (g : ActuatorBase) : List Nat :=
  match g.dofIndices with
  | .all => List.range (numJoints g)
  | .explicit l => l

def renderStrList (l : List String) : String :=
  "[" ++ String.intercalate (", ") l ++ "]"

def renderNatList (l : List Nat) : String :=
  "[" ++ String.intercalate (", ") (l.map toString) ++ "]"

def renderSelector : DofSelector → String
  | .all => "Ellipsis"
  | .exprs ps => renderStrList ps

/-- The model of `ActuatorBase.__str__` (lines 91-103): the human-readable
summary of the group. -/
def strRepr (g : ActuatorBase) : String :=
  "<class ActuatorBase> object:\n" ++
  "\tNumber of joints      : " ++ toString (numJoints g) ++ "\n" ++
  "\tJoint names expression: " ++ renderSelector g.cfg.dof_names_expr ++ "\n" ++
  "\tJoint names           : " ++ renderStrList g.dofNames ++ "\n" ++
  "\tJoint indices         : " ++ renderNatList (resolvedIndices g) ++ "\n"

/-- Whether `t` is a prefix of `s` (executable). -/
def isPre : List Char → List Char → Bool
  | [], _ => true
  | _ :: _, [] => false
  | a :: as, b :: bs => a = b && isPre as bs

/-- Whether `t` occurs inside `s` (executable substring scan). -/
def subScan (t : List Char) : List Char → Bool
  | [] => isPre t []
  | c :: s' => isPre t (c :: s') || subScan t s'

/-- `t` occurs as a substring of `s`. -/
def strContains (s t : String) : Prop :=
  ∃ pre suf, s.data = pre ++ (t.data ++ suf)

/-- Executable form of `strContains`. -/
def strContainsB (s t : String) : Bool :=
  subScan t.data s.data

theorem strData_append (a b : String) : (a ++ b).data = a.data ++ b.data :=
  rfl

theorem isPre_iff (t : List Char) :
    ∀ s, isPre t s = true ↔ ∃ suf, s = t ++ suf := by
  induction t with
  | nil =>
    intro s
    constructor
    · intro _; exact ⟨s, rfl⟩
    · intro _; rfl
  | cons a as ih =>
    intro s
    cases s with
    | nil =>
      constructor
      · intro h; cases h
      · rintro ⟨suf, hsuf⟩; cases hsuf
    | cons b bs =>
      rw [isPre, Bool.and_eq_true, decide_eq_true_iff, ih bs]
      constructor
      · rintro ⟨rfl, suf, rfl⟩; exact ⟨suf, rfl⟩
      · rintro ⟨suf, hsuf⟩
        injection hsuf with h₁ h₂
        exact ⟨h₁.symm, suf, h₂⟩

theorem subScan_iff (t : List Char) :
    ∀ s, subScan t s = true ↔ ∃ pre suf, s = pre ++ (t ++ suf) := by
  intro s
  induction s with
  | nil =>
    rw [subScan, isPre_iff]
    constructor
    · rintro ⟨suf, hsuf⟩; exact ⟨[], suf, hsuf⟩
    · rintro ⟨pre, suf, hsuf⟩
      rcases List.append_eq_nil.mp hsuf.symm with ⟨rfl, h₂⟩
      exact ⟨suf, hsuf⟩
  | cons c s' ih =>
    rw [subScan, Bool.or_eq_true, isPre_iff, ih]
    constructor
    · rintro (⟨suf, hsuf⟩ | ⟨pre, suf, hsuf⟩)
      · exact ⟨[], suf, by rw [List.nil_append]; exact hsuf⟩
      · exact ⟨c :: pre, suf, by rw [List.cons_append, ← hsuf]⟩
    · rintro ⟨pre, suf, hsuf⟩
      cases pre with
      | nil => exact Or.inl ⟨suf, by simpa using hsuf⟩
      | cons p pre' =>
        injection hsuf with h₁ h₂
        exact Or.inr ⟨pre', suf, h₂⟩

theorem strContainsB_iff (s t : String) :
    strContainsB s t = true ↔ strContains s t :=
  subScan_iff t.data s.data

/-
Matrix helper lemmas.
-/

theorem getD_replicate {α : Type} (a d : α) :
    ∀ (n i : Nat), (List.replicate n a).getD i d = if i < n then a else d := by
  intro n
  induction n with
  | zero => intro i; simp [List.replicate]
  | succ n ih =>
    intro i
    cases i with
    | zero => simp [List.replicate]
    | succ i =>
      rw [List.replicate, List.getD_cons_succ, ih i]
      simp [Nat.succ_lt_succ_iff]

theorem getD_map_of_lt {α β : Type} (f : α → β) :
    ∀ (m : List α) (i : Nat), i < m.length →
      ∀ (d : α) (d' : β), (m.map f).getD i d' = f (m.getD i d) := by
  intro m
  induction m with
  | nil => intro i hi; cases hi
  | cons x xs ih =>
    intro i hi d d'
    cases i with
    | zero => rfl
    | succ i =>
      rw [List.map_cons, List.getD_cons_succ, List.getD_cons_succ]
      exact ih i (Nat.lt_of_succ_lt_succ hi) d d'

theorem getD_of_le {α : Type} :
    ∀ (m : List α) (i : Nat), m.length ≤ i → ∀ d : α, m.getD i d = d := by
  intro m
  induction m with
  | nil => intro i _ d; cases i <;> rfl
  | cons x xs ih =>
    intro i hi d
    cases i with
    | zero => cases hi
    | succ i => exact ih i (Nat.le_of_succ_le_succ hi) d

theorem getD_mem_of_lt {α : Type} :
    ∀ (m : List α) (i : Nat), i < m.length → ∀ d : α, m.getD i d ∈ m := by
  intro m
  induction m with
  | nil => intro i hi; cases hi
  | cons x xs ih =>
    intro i hi d
    cases i with
    | zero => exact List.mem_cons_self x xs
    | succ i =>
      exact List.mem_cons_of_mem x (ih i (Nat.lt_of_succ_lt_succ hi) d)

theorem getD_set_self {α : Type} :
    ∀ (l : List α) (j : Nat), j < l.length →
      ∀ (v d : α), (l.set j v).getD j d = v := by
  intro l
  induction l with
  | nil => intro j hj; cases hj
  | cons x xs ih =>
    intro j hj v d
    cases j with
    | zero => rfl
    | succ j =>
      rw [List.set_cons_succ, List.getD_cons_succ]
      exact ih j (Nat.lt_of_succ_lt_succ hj) v d

theorem getD_set_ne {α : Type} :
    ∀ (l : List α) (j j' : Nat), j' ≠ j →
      ∀ (v d : α), (l.set j v).getD j' d = l.getD j' d := by
  intro l
  induction l with
  | nil => intro j j' _ v d; cases j <;> rfl
  | cons x xs ih =>
    intro j j' hne v d
    cases j with
    | zero =>
      cases j' with
      | zero => exact absurd rfl hne
      | succ j' => rfl
    | succ j =>
      cases j' with
      | zero => rfl
      | succ j' =>
        rw [List.set_cons_succ, List.getD_cons_succ, List.getD_cons_succ]
        exact ih j j' (fun h => hne (congrArg Nat.succ h)) v d

theorem length_setCol (m : Mat) (j : Nat) (v : Rat) :
    (setCol m j v).length = m.length := by
  simp [setCol]

theorem matShape_setCol {m : Mat} {e n : Nat} (h : matShape m e n)
    (j : Nat) (v : Rat) : matShape (setCol m j v) e n := by
  refine ⟨by rw [length_setCol]; exact h.1, ?_⟩
  intro row hrow
  rcases List.mem_map.mp hrow with ⟨row₀, hrow₀, rfl⟩
  rw [List.length_set]
  exact h.2 row₀ hrow₀

theorem matShape_zerosMat (e n : Nat) : matShape (zerosMat e n) e n := by
  refine ⟨by simp [zerosMat], ?_⟩
  intro row hrow
  rw [List.eq_of_mem_replicate hrow]
  simp

theorem matGet_zerosMat (e n i j : Nat) : matGet (zerosMat e n) i j = 0 := by
  rw [matGet, zerosMat, getD_replicate]
  by_cases hi : i < e
  · rw [if_pos hi, getD_replicate]
    by_cases hj : j < n
    · rw [if_pos hj]
    · rw [if_neg hj]
  · rw [if_neg hi]
    cases j <;> rfl

theorem matGet_setCol_self {m : Mat} {e n : Nat} (h : matShape m e n)
    {i j : Nat} (hi : i < e) (hj : j < n) (v : Rat) :
    matGet (setCol m j v) i j = v := by
  have hlen : i < m.length := by rw [h.1]; exact hi
  rw [matGet, setCol, getD_map_of_lt _ m i hlen []]
  have hmem := getD_mem_of_lt m i hlen []
  have hrow : (m.getD i []).length = n := h.2 _ hmem
  exact getD_set_self _ j (by rw [hrow]; exact hj) v 0

theorem matGet_setCol_ne (m : Mat) {j j' : Nat} (hne : j' ≠ j)
    (i : Nat) (v : Rat) : matGet (setCol m j v) i j' = matGet m i j' := by
  by_cases hi : i < m.length
  · rw [matGet, setCol, getD_map_of_lt _ m i hi [], matGet]
    exact getD_set_ne _ j j' hne v 0
  · have h₁ : m.getD i [] = [] := getD_of_le m i (Nat.le_of_not_lt hi) []
    have h₂ : (setCol m j v).getD i [] = [] := by
      refine getD_of_le _ i ?_ []
      rw [length_setCol]
      exact Nat.le_of_not_lt hi
    rw [matGet, matGet, h₁, h₂]

/-
Overlay-loop lemmas.
-/

theorem applyMapToJoint_ok_shape :
    ∀ (es : Entries) (buf : Mat) {idx : Nat} {name : String} {buf' : Mat}
      {e n : Nat},
      applyMapToJoint buf idx name es = .ok buf' → matShape buf e n →
      matShape buf' e n := by
  intro es
  induction es with
  | nil =>
    intro buf idx name buf' e n h hs
    simp only [applyMapToJoint] at h
    exact (Except.ok.inj h) ▸ hs
  | cons kv rest ih =>
    obtain ⟨key, val⟩ := kv
    intro buf idx name buf' e n h hs
    simp only [applyMapToJoint] at h
    cases hk : parseRegex key with
    | none => rw [hk] at h; cases h
    | some r =>
      rw [hk] at h
      dsimp only at h
      by_cases hm : rmatch r name.data = true
      · rw [if_pos hm] at h
        cases val with
        | some v => exact ih _ h (matShape_setCol hs idx v)
        | none => exact ih _ h hs
      · rw [if_neg hm] at h
        exact ih _ h hs

theorem applyMapToJoint_ok_col :
    ∀ (es : Entries) (buf : Mat) {idx : Nat} {name : String} {buf' : Mat}
      {e n : Nat},
      applyMapToJoint buf idx name es = .ok buf' → matShape buf e n →
      idx < n → ∀ i, i < e →
      matGet buf' i idx = (specLastMatch es name).getD (matGet buf i idx) := by
  intro es
  induction es with
  | nil =>
    intro buf idx name buf' e n h hs hidx i hi
    simp only [applyMapToJoint] at h
    rw [← Except.ok.inj h, specLastMatch]
    rfl
  | cons kv rest ih =>
    obtain ⟨key, val⟩ := kv
    intro buf idx name buf' e n h hs hidx i hi
    simp only [applyMapToJoint] at h
    cases hk : parseRegex key with
    | none => rw [hk] at h; cases h
    | some r =>
      rw [hk] at h
      dsimp only at h
      have hfm : fullmatch key name = rmatch r name.data := by
        rw [fullmatch, hk]
      by_cases hm : rmatch r name.data = true
      · rw [if_pos hm] at h
        cases val with
        | some v =>
          have hrec := ih _ h (matShape_setCol hs idx v) hidx i hi
          rw [hrec, matGet_setCol_self hs hi hidx v, specLastMatch]
          cases hrest : specLastMatch rest name with
          | some w => rfl
          | none => simp [hfm, hm]
        | none =>
          have hrec := ih _ h hs hidx i hi
          rw [hrec, specLastMatch]
          cases hrest : specLastMatch rest name with
          | some w => rfl
          | none => simp
      · rw [if_neg hm] at h
        have hrec := ih _ h hs hidx i hi
        rw [hrec, specLastMatch]
        cases hrest : specLastMatch rest name with
        | some w => rfl
        | none =>
          have hf : fullmatch key name = false := by
            rw [hfm]
            exact Bool.eq_false_iff.mpr hm
          simp [hf]

theorem applyMapToJoint_ok_col_ne :
    ∀ (es : Entries) (buf : Mat) {idx : Nat} {name : String} {buf' : Mat},
      applyMapToJoint buf idx name es = .ok buf' →
      ∀ {j : Nat}, j ≠ idx → ∀ i, matGet buf' i j = matGet buf i j := by
  intro es
  induction es with
  | nil =>
    intro buf idx name buf' h j hj i
    simp only [applyMapToJoint] at h
    rw [← Except.ok.inj h]
  | cons kv rest ih =>
    obtain ⟨key, val⟩ := kv
    intro buf idx name buf' h j hj i
    simp only [applyMapToJoint] at h
    cases hk : parseRegex key with
    | none => rw [hk] at h; cases h
    | some r =>
      rw [hk] at h
      dsimp only at h
      by_cases hm : rmatch r name.data = true
      · rw [if_pos hm] at h
        cases val with
        | some v =>
          rw [ih _ h hj i]
          exact matGet_setCol_ne buf hj i v
        | none => exact ih _ h hj i
      · rw [if_neg hm] at h
        exact ih _ h hj i

theorem applyMapToJoint_ok_eq_of_nomatch :
    ∀ (es : Entries) (buf : Mat) {idx : Nat} {name : String} {buf' : Mat},
      applyMapToJoint buf idx name es = .ok buf' →
      (∀ p v, (p, v) ∈ es → ∀ r, parseRegex p = some r →
        rmatch r name.data = false) →
      buf' = buf := by
  intro es
  induction es with
  | nil =>
    intro buf idx name buf' h _
    simp only [applyMapToJoint] at h
    exact (Except.ok.inj h).symm
  | cons kv rest ih =>
    obtain ⟨key, val⟩ := kv
    intro buf idx name buf' h hno
    simp only [applyMapToJoint] at h
    cases hk : parseRegex key with
    | none => rw [hk] at h; cases h
    | some r =>
      rw [hk] at h
      dsimp only at h
      have hfalse : rmatch r name.data = false :=
        hno key val (List.mem_cons_self _ _) r hk
      rw [if_neg (by rw [hfalse]; exact Bool.false_ne_true)] at h
      exact ih _ h (fun p v hmem => hno p v (List.mem_cons_of_mem _ hmem))

theorem applyMapToJoint_error_of_bad :
    ∀ (es : Entries) (buf : Mat) (idx : Nat) (name : String) {p : String}
      {v : Option Rat},
      (p, v) ∈ es → parseRegex p = none →
      ∃ e, applyMapToJoint buf idx name es = .error e := by
  intro es
  induction es with
  | nil =>
    intro buf idx name p v hmem _
    cases hmem
  | cons kv rest ih =>
    obtain ⟨key, val⟩ := kv
    intro buf idx name p v hmem hp
    cases hmem with
    | head =>
      refine ⟨.invalidPattern key, ?_⟩
      simp only [applyMapToJoint]
      rw [hp]
    | tail _ hmem =>
      cases hk : parseRegex key with
      | none =>
        exact ⟨.invalidPattern key, by simp only [applyMapToJoint]; rw [hk]⟩
      | some r =>
        by_cases hm : rmatch r name.data = true
        · cases val with
          | some w =>
            obtain ⟨e, he⟩ := ih (setCol buf idx w) idx name hmem hp
            refine ⟨e, ?_⟩
            simp only [applyMapToJoint]
            rw [hk]
            dsimp only
            rw [if_pos hm]
            exact he
          | none =>
            obtain ⟨e, he⟩ := ih buf idx name hmem hp
            refine ⟨e, ?_⟩
            simp only [applyMapToJoint]
            rw [hk]
            dsimp only
            rw [if_pos hm]
            exact he
        · obtain ⟨e, he⟩ := ih buf idx name hmem hp
          refine ⟨e, ?_⟩
          simp only [applyMapToJoint]
          rw [hk]
          dsimp only
          rw [if_neg hm]
          exact he

theorem applyOpt_ok_shape {cfgM : Option Entries} {buf : Mat} {idx : Nat}
    {nm : String} {buf' : Mat} {e n : Nat}
    (h : applyOpt cfgM buf idx nm = .ok buf') (hs : matShape buf e n) :
    matShape buf' e n := by
  cases cfgM with
  | none =>
    simp only [applyOpt] at h
    exact (Except.ok.inj h) ▸ hs
  | some es => exact applyMapToJoint_ok_shape es buf h hs

theorem applyOpt_ok_col {cfgM : Option Entries} {buf : Mat} {idx : Nat}
    {nm : String} {buf' : Mat} {e n : Nat}
    (h : applyOpt cfgM buf idx nm = .ok buf') (hs : matShape buf e n)
    (hidx : idx < n) (i : Nat) (hi : i < e) :
    matGet buf' i idx = overlayVal cfgM nm (matGet buf i idx) := by
  cases cfgM with
  | none =>
    simp only [applyOpt] at h
    rw [← Except.ok.inj h, overlayVal]
  | some es =>
    rw [overlayVal]
    exact applyMapToJoint_ok_col es buf h hs hidx i hi

theorem applyOpt_ok_col_ne {cfgM : Option Entries} {buf : Mat} {idx : Nat}
    {nm : String} {buf' : Mat}
    (h : applyOpt cfgM buf idx nm = .ok buf') {j : Nat} (hj : j ≠ idx)
    (i : Nat) : matGet buf' i j = matGet buf i j := by
  cases cfgM with
  | none =>
    simp only [applyOpt] at h
    rw [← Except.ok.inj h]
  | some es => exact applyMapToJoint_ok_col_ne es buf h hj i

theorem applyGains_ok_shape :
    ∀ (L : List (Nat × String)) (s d : Mat) {cfgS cfgD : Option Entries}
      {s' d' : Mat} {e n : Nat},
      applyGains cfgS cfgD L s d = .ok (s', d') →
      matShape s e n → matShape d e n →
      matShape s' e n ∧ matShape d' e n := by
  intro L
  induction L with
  | nil =>
    intro s d cfgS cfgD s' d' e n h hs hd
    simp only [applyGains] at h
    obtain ⟨h₁, h₂⟩ := Prod.mk.injEq .. ▸ Except.ok.inj h
    exact ⟨h₁ ▸ hs, h₂ ▸ hd⟩
  | cons q rest ih =>
    obtain ⟨idx, nm⟩ := q
    intro s d cfgS cfgD s' d' e n h hs hd
    simp only [applyGains] at h
    cases hrs : applyOpt cfgS s idx nm with
    | error e₀ => rw [hrs] at h; cases h
    | ok s₁ =>
      rw [hrs] at h
      dsimp only at h
      cases hrd : applyOpt cfgD d idx nm with
      | error e₀ => rw [hrd] at h; cases h
      | ok d₁ =>
        rw [hrd] at h
        dsimp only at h
        exact ih s₁ d₁ h (applyOpt_ok_shape hrs hs) (applyOpt_ok_shape hrd hd)

theorem applyGains_ok_col_ne :
    ∀ (L : List (Nat × String)) (s d : Mat) {cfgS cfgD : Option Entries}
      {s' d' : Mat},
      applyGains cfgS cfgD L s d = .ok (s', d') →
      ∀ {j : Nat}, (∀ q ∈ L, Prod.fst q ≠ j) → ∀ i,
        matGet s' i j = matGet s i j ∧ matGet d' i j = matGet d i j := by
  intro L
  induction L with
  | nil =>
    intro s d cfgS cfgD s' d' h j _ i
    simp only [applyGains] at h
    obtain ⟨h₁, h₂⟩ := Prod.mk.injEq .. ▸ Except.ok.inj h
    rw [← h₁, ← h₂]
    exact ⟨rfl, rfl⟩
  | cons q rest ih =>
    obtain ⟨idx, nm⟩ := q
    intro s d cfgS cfgD s' d' h j hne i
    simp only [applyGains] at h
    cases hrs : applyOpt cfgS s idx nm with
    | error e₀ => rw [hrs] at h; cases h
    | ok s₁ =>
      rw [hrs] at h
      dsimp only at h
      cases hrd : applyOpt cfgD d idx nm with
      | error e₀ => rw [hrd] at h; cases h
      | ok d₁ =>
        rw [hrd] at h
        dsimp only at h
        have hj : j ≠ idx :=
          fun hh => hne (idx, nm) (List.mem_cons_self _ _) hh.symm
        have hrec := ih s₁ d₁ h
          (fun q hq => hne q (List.mem_cons_of_mem _ hq)) i
        rw [hrec.1, hrec.2, applyOpt_ok_col_ne hrs hj i,
          applyOpt_ok_col_ne hrd hj i]
        exact ⟨rfl, rfl⟩

theorem applyGains_ok_col :
    ∀ (L : List (Nat × String)) (s d : Mat) {cfgS cfgD : Option Entries}
      {s' d' : Mat} {e n : Nat},
      applyGains cfgS cfgD L s d = .ok (s', d') →
      matShape s e n → matShape d e n →
      (L.map Prod.fst).Nodup →
      ∀ {j : Nat} {nm : String}, (j, nm) ∈ L → j < n → ∀ i, i < e →
        matGet s' i j = overlayVal cfgS nm (matGet s i j)
        ∧ matGet d' i j = overlayVal cfgD nm (matGet d i j) := by
  intro L
  induction L with
  | nil =>
    intro s d cfgS cfgD s' d' e n h hs hd hnd j nm hmem
    cases hmem
  | cons q rest ih =>
    obtain ⟨idx, nm₀⟩ := q
    intro s d cfgS cfgD s' d' e n h hs hd hnd j nm hmem hj i hi
    simp only [applyGains] at h
    cases hrs : applyOpt cfgS s idx nm₀ with
    | error e₀ => rw [hrs] at h; cases h
    | ok s₁ =>
      rw [hrs] at h
      dsimp only at h
      cases hrd : applyOpt cfgD d idx nm₀ with
      | error e₀ => rw [hrd] at h; cases h
      | ok d₁ =>
        rw [hrd] at h
        dsimp only at h
        rw [List.map_cons, List.nodup_cons] at hnd
        rcases List.mem_cons.mp hmem with heq | hmem
        · have hj1 : j = idx := congrArg Prod.fst heq
          have hn1 : nm = nm₀ := congrArg Prod.snd heq
          rw [hj1] at hj
          rw [hj1, hn1]
          have hrest : ∀ q ∈ rest, Prod.fst q ≠ idx := by
            intro q hq hfst
            apply hnd.1
            show idx ∈ List.map Prod.fst rest
            rw [← hfst]
            exact List.mem_map_of_mem Prod.fst hq
          have hfix := applyGains_ok_col_ne rest s₁ d₁ h hrest i
          rw [hfix.1, hfix.2, applyOpt_ok_col hrs hs hj i hi,
            applyOpt_ok_col hrd hd hj i hi]
          exact ⟨rfl, rfl⟩
        ·
          have hj0 : j ≠ idx := by
            intro hh
            apply hnd.1
            show idx ∈ List.map Prod.fst rest
            rw [← hh]
            exact List.mem_map_of_mem Prod.fst hmem
          have hrec := ih s₁ d₁ h (applyOpt_ok_shape hrs hs)
            (applyOpt_ok_shape hrd hd) hnd.2 hmem hj i hi
          rw [hrec.1, hrec.2, applyOpt_ok_col_ne hrs hj0 i,
            applyOpt_ok_col_ne hrd hj0 i]
          exact ⟨rfl, rfl⟩

theorem applyGains_error_of_bad {cfgS cfgD : Option Entries}
    {L : List (Nat × String)} (hL : L ≠ []) {p : String} {v : Option Rat}
    (hbad : (∃ es, cfgS = some es ∧ (p, v) ∈ es)
      ∨ (∃ es, cfgD = some es ∧ (p, v) ∈ es))
    (hp : parseRegex p = none) (s d : Mat) :
    ∃ e, applyGains cfgS cfgD L s d = .error e := by
  cases L with
  | nil => exact absurd rfl hL
  | cons q rest =>
    obtain ⟨idx, nm⟩ := q
    cases hbad with
    | inl hbad =>
      obtain ⟨es, hS, hmem⟩ := hbad
      obtain ⟨e₀, he₀⟩ := applyMapToJoint_error_of_bad es s idx nm hmem hp
      refine ⟨e₀, ?_⟩
      simp only [applyGains, applyOpt, hS]
      rw [he₀]
    | inr hbad =>
      obtain ⟨es, hD, hmem⟩ := hbad
      cases hrs : applyOpt cfgS s idx nm with
      | error e₀ =>
        refine ⟨e₀, ?_⟩
        simp only [applyGains]
        rw [hrs]
      | ok s₁ =>
        obtain ⟨e₀, he₀⟩ := applyMapToJoint_error_of_bad es d idx nm hmem hp
        refine ⟨e₀, ?_⟩
        simp only [applyGains]
        rw [hrs]
        dsimp only
        simp only [applyOpt, hD]
        rw [he₀]

/-
Enumeration lemmas.
-/

theorem enumFromN_fst_ge :
    ∀ (l : List String) (i : Nat) (q : Nat × String),
      q ∈ enumFromN i l → i ≤ q.1 := by
  intro l
  induction l with
  | nil => intro i q hq; cases hq
  | cons x xs ih =>
    intro i q hq
    cases hq with
    | head => exact Nat.le_refl i
    | tail _ hq => exact Nat.le_of_succ_le (ih (i + 1) q hq)

theorem enumFromN_map_fst_nodup :
    ∀ (l : List String) (i : Nat), ((enumFromN i l).map Prod.fst).Nodup := by
  intro l
  induction l with
  | nil => intro i; simp [enumFromN]
  | cons x xs ih =>
    intro i
    rw [enumFromN, List.map_cons, List.nodup_cons]
    refine ⟨?_, ih (i + 1)⟩
    intro hmem
    rcases List.mem_map.mp hmem with ⟨q, hq, hfst⟩
    have := enumFromN_fst_ge xs (i + 1) q hq
    omega

theorem enumFromN_snd_mem :
    ∀ (l : List String) (i : Nat) (q : Nat × String),
      q ∈ enumFromN i l → q.2 ∈ l := by
  intro l
  induction l with
  | nil => intro i q hq; cases hq
  | cons x xs ih =>
    intro i q hq
    cases hq with
    | head => exact List.mem_cons_self x xs
    | tail _ hq => exact List.mem_cons_of_mem x (ih (i + 1) q hq)

theorem mem_enumFromN :
    ∀ (l : List String) (j : Nat), j < l.length →
      ∀ i, (i + j, l.getD j ("")) ∈ enumFromN i l := by
  intro l
  induction l with
  | nil => intro j hj; cases hj
  | cons x xs ih =>
    intro j hj i
    cases j with
    | zero =>
      rw [enumFromN]
      have : i + 0 = i := Nat.add_zero i
      rw [this]
      exact List.mem_cons_self _ _
    | succ j =>
      rw [enumFromN]
      have harith : i + (j + 1) = (i + 1) + j := by omega
      rw [harith]
      exact List.mem_cons_of_mem _
        (ih j (Nat.lt_of_succ_lt_succ hj) (i + 1))

theorem enumFromN_ne_nil {l : List String} (hl : l ≠ []) (i : Nat) :
    enumFromN i l ≠ [] := by
  cases l with
  | nil => exact absurd rfl hl
  | cons x xs =>
    rw [enumFromN]
    exact List.cons_ne_nil _ _

/-
Resolution and construction destructors.
-/

theorem parseAll_ok_mem :
    ∀ {ps : List String} {rs : List Regex}, parseAll ps = .ok rs →
      ∀ p ∈ ps, ∃ r, parseRegex p = some r := by
  intro ps
  induction ps with
  | nil => intro rs _ p hp; cases hp
  | cons q qs ih =>
    intro rs h p hp
    simp only [parseAll] at h
    cases hq : parseRegex q with
    | none => rw [hq] at h; cases h
    | some r =>
      rw [hq] at h
      dsimp only at h
      cases hqs : parseAll qs with
      | error e => rw [hqs] at h; cases h
      | ok rs' =>
        cases hp with
        | head => exact ⟨r, hq⟩
        | tail _ hp => exact ih hqs p hp

theorem resolve_ok_ne_nil {sel : DofSelector} {full names : List String}
    {ids : DofIds} (h : resolve sel full = .ok (names, ids)) :
    names ≠ [] := by
  cases sel with
  | all =>
    simp only [resolve] at h
    by_cases hemp : full.isEmpty
    · rw [if_pos hemp] at h; cases h
    · rw [if_neg hemp] at h
      obtain ⟨h₁, _⟩ := Prod.mk.injEq .. ▸ Except.ok.inj h
      rw [← h₁]
      exact fun hnil => hemp (by rw [hnil]; rfl)
  | exprs ps =>
    simp only [resolve] at h
    by_cases hemp : ps.isEmpty
    · rw [if_pos hemp] at h; cases h
    · rw [if_neg hemp] at h
      cases hps : parseAll ps with
      | error e => rw [hps] at h; cases h
      | ok rs =>
        rw [hps] at h
        dsimp only at h
        by_cases hhit : ((enumFromN 0 full).filter
            (fun p => rs.any (fun r => rmatch r p.2.data))).isEmpty
        · rw [if_pos hhit] at h; cases h
        · rw [if_neg hhit] at h
          obtain ⟨h₁, _⟩ := Prod.mk.injEq .. ▸ Except.ok.inj h
          rw [← h₁]
          intro hnil
          rw [List.map_eq_nil_iff] at hnil
          exact hhit (by rw [hnil]; rfl)

theorem resolve_exprs_ok {ps full : List String} {names : List String}
    {ids : DofIds} (h : resolve (.exprs ps) full = .ok (names, ids)) :
    ∃ rs, parseAll ps = .ok rs := by
  simp only [resolve] at h
  by_cases hemp : ps.isEmpty
  · rw [if_pos hemp] at h; cases h
  · rw [if_neg hemp] at h
    cases hps : parseAll ps with
    | error e => rw [hps] at h; cases h
    | ok rs => exact ⟨rs, rfl⟩

theorem resolve_ok_ids {sel : DofSelector} {full names : List String}
    {ids : DofIds} (h : resolve sel full = .ok (names, ids)) :
    (ids = .all ∧ names = full)
    ∨ (∃ l : List Nat, ids = .explicit l ∧ l.Nodup
        ∧ l.length = names.length) := by
  cases sel with
  | all =>
    simp only [resolve] at h
    by_cases hemp : full.isEmpty
    · rw [if_pos hemp] at h; cases h
    · rw [if_neg hemp] at h
      obtain ⟨h₁, h₂⟩ := Prod.mk.injEq .. ▸ Except.ok.inj h
      exact Or.inl ⟨h₂.symm, h₁.symm⟩
  | exprs ps =>
    simp only [resolve] at h
    by_cases hemp : ps.isEmpty
    · rw [if_pos hemp] at h; cases h
    · rw [if_neg hemp] at h
      cases hps : parseAll ps with
      | error e => rw [hps] at h; cases h
      | ok rs =>
        rw [hps] at h
        dsimp only at h
        by_cases hhit : ((enumFromN 0 full).filter
            (fun p => rs.any (fun r => rmatch r p.2.data))).isEmpty
        · rw [if_pos hhit] at h; cases h
        · rw [if_neg hhit] at h
          obtain ⟨h₁, h₂⟩ := Prod.mk.injEq .. ▸ Except.ok.inj h
          refine Or.inr ⟨((enumFromN 0 full).filter
            (fun p => rs.any (fun r => rmatch r p.2.data))).map Prod.fst,
            h₂.symm, ?_, ?_⟩
          · exact (enumFromN_map_fst_nodup full 0).sublist
              ((List.filter_sublist _).map Prod.fst)
          · rw [← h₁, List.length_map, List.length_map]

theorem initActuator_ok {cfg : ActuatorBaseCfg} {names : List String}
    {ids : DofIds} {envs : Nat} {g : ActuatorBase}
    (h : initActuator cfg names ids envs = .ok g) :
    ∃ s d, applyGains cfg.stiffness cfg.damping (enumFromN 0 names)
        (zerosMat envs names.length) (zerosMat envs names.length) = .ok (s, d)
      ∧ g = { cfg := cfg, numEnvs := envs, dofNames := names,
              dofIndices := ids,
              computed_effort := zerosMat envs names.length,
              applied_effort := zerosMat envs names.length,
              effort_limit := limitOf cfg.effort_limit,
              velocity_limit := limitOf cfg.velocity_limit,
              stiffness := s, damping := d } := by
  simp only [initActuator] at h
  cases hap : applyGains cfg.stiffness cfg.damping (enumFromN 0 names)
      (zerosMat envs names.length) (zerosMat envs names.length) with
  | error e => rw [hap] at h; cases h
  | ok sd =>
    obtain ⟨s, d⟩ := sd
    rw [hap] at h
    dsimp only at h
    exact ⟨s, d, rfl, (Except.ok.inj h).symm⟩

theorem initActuator_error_of_gains {cfg : ActuatorBaseCfg}
    {names : List String} {ids : DofIds} {envs : Nat} {e : ConfigError}
    (h : applyGains cfg.stiffness cfg.damping (enumFromN 0 names)
      (zerosMat envs names.length) (zerosMat envs names.length) = .error e) :
    initActuator cfg names ids envs = .error e := by
  simp only [initActuator]
  rw [h]

theorem constructGroup_ok {cfg : ActuatorBaseCfg} {full : List String}
    {envs : Nat} {g : ActuatorBase}
    (h : constructGroup cfg full envs = .ok g) :
    ∃ names ids, resolve cfg.dof_names_expr full = .ok (names, ids)
      ∧ initActuator cfg names ids envs = .ok g := by
  simp only [constructGroup] at h
  cases hres : resolve cfg.dof_names_expr full with
  | error e => rw [hres] at h; cases h
  | ok x =>
    obtain ⟨names, ids⟩ := x
    rw [hres] at h
    exact ⟨names, ids, rfl, h⟩

/-
Substring navigation helpers for the summary string.
-/

theorem strContains_left {x : String} (t y : String)
    (h : strContains x t) : strContains (x ++ y) t := by
  obtain ⟨a, b, hd⟩ := h
  exact ⟨a, b ++ y.data, by rw [strData_append, hd]; simp [List.append_assoc]⟩

theorem strContains_right {y : String} (t x : String)
    (h : strContains y t) : strContains (x ++ y) t := by
  obtain ⟨a, b, hd⟩ := h
  exact ⟨x.data ++ a, b, by rw [strData_append, hd]; simp [List.append_assoc]⟩

theorem strContains_self (t : String) : strContains t t :=
  ⟨[], [], by simp⟩

/-
Concrete example instances, used to exercise the theorems below.
-/

def exCfg : ActuatorBaseCfg :=
  { dof_names_expr := .exprs [("hip_.*")],
    stiffness := some [(("hip_.*"), some 50), (("hip_left"), some 80)],
    damping := some [(("hip_.*"), some 10)] }

def exNames : List String := [("hip_left"), ("hip_right")]

def exG : ActuatorBase :=
  { cfg := exCfg, numEnvs := 1, dofNames := exNames,
    dofIndices := .explicit [0, 1],
    computed_effort := [[0, 0]], applied_effort := [[0, 0]],
    effort_limit := .inf, velocity_limit := .inf,
    stiffness := [[80, 50]], damping := [[10, 10]] }

def exCfgLim : ActuatorBaseCfg :=
  { dof_names_expr := .exprs [("a")], effort_limit := some 7 }

def exGLim : ActuatorBase :=
  { cfg := exCfgLim, numEnvs := 1, dofNames := [("a")],
    dofIndices := .explicit [0],
    computed_effort := [[0]], applied_effort := [[0]],
    effort_limit := .fin 7, velocity_limit := .inf,
    stiffness := [[0]], damping := [[0]] }

def exEntry : Entries := [(("hip_left"), some 80)]

def exCfgBad : ActuatorBaseCfg :=
  { dof_names_expr := .exprs [("a")], stiffness := some [(("("), some 1)] }

def cfgNeg : ActuatorBaseCfg :=
  { dof_names_expr := .exprs [("joint_a")], effort_limit := some (-5),
    velocity_limit := some (-2) }

def gNeg : ActuatorBase :=
  { cfg := cfgNeg, numEnvs := 1, dofNames := [("joint_a")],
    dofIndices := .explicit [0],
    computed_effort := [[0]], applied_effort := [[0]],
    effort_limit := .fin (-5), velocity_limit := .fin (-2),
    stiffness := [[0]], damping := [[0]] }

def cfgAll : ActuatorBaseCfg := { dof_names_expr := .all }

/-- A configuration with both limits overridden; used to state that limit
parsing is independent of the rest of construction. -/
def withLimits (cfg : ActuatorBaseCfg) (v w : Rat) : ActuatorBaseCfg :=
  { cfg with effort_limit := some v, velocity_limit := some w }

/-- The effect limit storage has on a constructed group: the stored
configuration and the two limit fields change, nothing else does. -/
def storeLimits (cfg : ActuatorBaseCfg) (v w : Rat) (g : ActuatorBase) : ActuatorBase :=
  { g with cfg := withLimits cfg v w, effort_limit := Limit.fin v, velocity_limit := Limit.fin w }

def gAll : ActuatorBase :=
  { cfg := cfgAll, numEnvs := 1, dofNames := [("ja"), ("jb")],
    dofIndices := .all,
    computed_effort := [[0, 0]], applied_effort := [[0, 0]],
    effort_limit := .inf, velocity_limit := .inf,
    stiffness := [[0, 0]], damping := [[0, 0]] }

/-
The claims.
-/

/-- C1: for every construction of an actuator group with an ordered
stiffness (or damping) pattern-to-value map, the per-joint gain buffer is
assigned by iterating the map in insertion order for each joint: every
pattern that full-matches the joint's name and carries a non-absent value
overwrites that joint's entry, so the last matching pattern in map order
wins for that joint only — the final stiffness (damping) entry of every
environment and joint equals the value of the last matching present entry
for that joint's own name (`overlayVal`/`specLastMatch`, the spec's
reference), with `0` when no entry applies. -/
theorem stiffness_damping_last_match_wins {cfg : ActuatorBaseCfg}
    {names : List String} {ids : DofIds} {envs : Nat} {g : ActuatorBase}
    (h : initActuator cfg names ids envs = .ok g)
    {i j : Nat} (hi : i < envs) (hj : j < names.length) :
    matGet g.stiffness i j = overlayVal cfg.stiffness (names.getD j ("")) 0
    ∧ matGet g.damping i j = overlayVal cfg.damping (names.getD j ("")) 0 := by
  obtain ⟨s, d, hap, hg⟩ := initActuator_ok h
  subst hg
  dsimp only
  have hmem : (j, names.getD j ("")) ∈ enumFromN 0 names := by
    have := mem_enumFromN names j hj 0
    simpa using this
  have hcol := applyGains_ok_col (enumFromN 0 names) _ _ hap
    (matShape_zerosMat envs names.length)
    (matShape_zerosMat envs names.length)
    (enumFromN_map_fst_nodup names 0) hmem hj i hi
  simp only [matGet_zerosMat] at hcol
  exact hcol

/-- C1 witness: applying the stiffness overlay with the ordered map
`[("hip_.*", 50), ("hip_left", 80)]` over joints
`["hip_left", "hip_right"]` yields stiffness `[80, 50]`: the later
pattern wins only for the joint it matches. -/
theorem stiffness_damping_last_match_wins_witness :
    matGet exG.stiffness 0 0 = 80 ∧ matGet exG.stiffness 0 1 = 50 := by
  have h0 := stiffness_damping_last_match_wins
    (show initActuator exCfg exNames (DofIds.explicit [0, 1]) 1 = .ok exG
      from rfl)
    (show (0 : Nat) < 1 by decide) (show (0 : Nat) < exNames.length by decide)
  have h1 := stiffness_damping_last_match_wins
    (show initActuator exCfg exNames (DofIds.explicit [0, 1]) 1 = .ok exG
      from rfl)
    (show (0 : Nat) < 1 by decide) (show (1 : Nat) < exNames.length by decide)
  exact ⟨h0.1.trans (by decide), h1.1.trans (by decide)⟩

/-- C2: constructing an actuator group whose pattern resolution yields
zero joints (no configured pattern matches any joint name of the
articulation) fails with a `ConfigError`; construction does not
complete. -/
theorem construct_zero_joints_fails {cfg : ActuatorBaseCfg}
    {full : List String} {envs : Nat} {ps : List String} {rs : List Regex}
    (hsel : cfg.dof_names_expr = .exprs ps) (hps : parseAll ps = .ok rs)
    (hno : ∀ nm ∈ full, ∀ r ∈ rs, rmatch r nm.data = false) :
    ∃ e, constructGroup cfg full envs = .error e := by
  simp only [constructGroup, hsel, resolve]
  by_cases hemp : ps.isEmpty
  · rw [if_pos hemp]
    exact ⟨.emptyPatterns, rfl⟩
  · rw [if_neg hemp, hps]
    dsimp only
    have hfilter : (enumFromN 0 full).filter
        (fun p => rs.any (fun r => rmatch r p.2.data)) = [] := by
      rw [List.filter_eq_nil_iff]
      intro q hq hh
      rw [List.any_eq_true] at hh
      obtain ⟨r, hr, hrm⟩ := hh
      rw [hno q.2 (enumFromN_snd_mem full 0 q hq) r hr] at hrm
      cases hrm
    rw [hfilter]
    exact ⟨.zeroJoints, rfl⟩

/-- C2 witness: a pattern list matching no joint of the articulation makes
construction fail. -/
theorem construct_zero_joints_fails_witness :
    ∃ e, constructGroup { dof_names_expr := .exprs [("foo")] }
      [("bar")] 1 = .error e :=
  construct_zero_joints_fails rfl rfl (by decide)

/-- C3: after construction, the group's effort_limit equals the configured
effort limit when one is present and positive infinity (the unbounded
class-level default) otherwise, and likewise velocity_limit. -/
theorem limits_from_config {cfg : ActuatorBaseCfg} {names : List String}
    {ids : DofIds} {envs : Nat} {g : ActuatorBase}
    (h : initActuator cfg names ids envs = .ok g) :
    (∀ v, cfg.effort_limit = some v → g.effort_limit = Limit.fin v)
    ∧ (cfg.effort_limit = none → g.effort_limit = Limit.inf)
    ∧ (∀ v, cfg.velocity_limit = some v → g.velocity_limit = Limit.fin v)
    ∧ (cfg.velocity_limit = none → g.velocity_limit = Limit.inf) := by
  obtain ⟨s, d, hap, hg⟩ := initActuator_ok h
  subst hg
  refine ⟨?_, ?_, ?_, ?_⟩
  · intro v hv; dsimp only; rw [hv]; rfl
  · intro hv; dsimp only; rw [hv]; rfl
  · intro v hv; dsimp only; rw [hv]; rfl
  · intro hv; dsimp only; rw [hv]; rfl

/-- C3 witness: a configured effort limit of 7 and an absent velocity
limit give effort_limit 7 and unbounded velocity_limit. -/
theorem limits_from_config_witness :
    exGLim.effort_limit = Limit.fin 7
    ∧ exGLim.velocity_limit = Limit.inf := by
  have h := limits_from_config
    (show initActuator exCfgLim [("a")] (DofIds.explicit [0]) 1 = .ok exGLim
      from rfl)
  exact ⟨h.1 7 rfl, h.2.2.2 rfl⟩

/-- C4: a pattern is considered to match a joint only under full-string
match semantics.  (1) The executable matcher used by the overlay decides
exactly the declarative whole-word semantics `RMatch`; (2) whenever the
overlay loop changes the gain buffer, some map entry's pattern matches the
joint's ENTIRE name; (3) concretely, a pattern equal to a proper prefix of
a joint name does not full-match it. -/
theorem overlay_full_string_semantics :
    (∀ (r : Regex) (w : List Char), rmatch r w = true ↔ RMatch r w)
    ∧ (∀ (buf : Mat) (idx : Nat) (name : String) (es : Entries)
        (buf' : Mat),
        applyMapToJoint buf idx name es = .ok buf' → buf' ≠ buf →
        ∃ p v r, (p, v) ∈ es ∧ parseRegex p = some r ∧ RMatch r name.data)
    ∧ fullmatch ("hip_left") ("hip_left") = true
    ∧ fullmatch ("hip_left") ("hip_left_foot") = false
    ∧ fullmatch ("hip") ("hip_left") = false := by
  refine ⟨fun r w => rmatch_iff_RMatch w r, ?_, by decide, by decide,
    by decide⟩
  intro buf idx name es buf' h hne
  by_contra hex
  push_neg at hex
  apply hne
  apply applyMapToJoint_ok_eq_of_nomatch es buf h
  intro p v hmem r hr
  refine Bool.eq_false_iff.mpr ?_
  intro hh
  exact hex p v r hmem hr ((rmatch_iff_RMatch name.data r).mp hh)

/-- C4 witness: a buffer change by the overlay exhibits an entry whose
pattern matches the whole joint name. -/
theorem overlay_full_string_semantics_witness :
    ∃ p v r, (p, v) ∈ exEntry ∧ parseRegex p = some r
      ∧ RMatch r (String.data ("hip_left")) :=
  overlay_full_string_semantics.2.1 (zerosMat 1 2) 0 ("hip_left") exEntry
    (setCol (zerosMat 1 2) 0 80) rfl (by decide)

/-- C5: for every construction with `num_envs` environments and `n`
resolved joints, the computed-effort and applied-effort buffers equal the
zero-filled `(num_envs, n)` allocation, and all four gain buffers have
shape `(num_envs, n)`. -/
theorem buffers_zero_alloc_shape {cfg : ActuatorBaseCfg}
    {names : List String} {ids : DofIds} {envs : Nat} {g : ActuatorBase}
    (h : initActuator cfg names ids envs = .ok g) :
    g.computed_effort = zerosMat envs (numJoints g)
    ∧ g.applied_effort = zerosMat envs (numJoints g)
    ∧ matShape g.computed_effort envs (numJoints g)
    ∧ matShape g.applied_effort envs (numJoints g)
    ∧ matShape g.stiffness envs (numJoints g)
    ∧ matShape g.damping envs (numJoints g) := by
  obtain ⟨s, d, hap, hg⟩ := initActuator_ok h
  subst hg
  have hsh := applyGains_ok_shape (enumFromN 0 names) _ _ hap
    (matShape_zerosMat envs names.length)
    (matShape_zerosMat envs names.length)
  exact ⟨rfl, rfl, matShape_zerosMat envs names.length,
    matShape_zerosMat envs names.length, hsh.1, hsh.2⟩

/-- C5 witness. -/
theorem buffers_zero_alloc_shape_witness :
    exG.computed_effort = zerosMat 1 (numJoints exG)
    ∧ exG.applied_effort = zerosMat 1 (numJoints exG)
    ∧ matShape exG.computed_effort 1 (numJoints exG)
    ∧ matShape exG.applied_effort 1 (numJoints exG)
    ∧ matShape exG.stiffness 1 (numJoints exG)
    ∧ matShape exG.damping 1 (numJoints exG) :=
  buffers_zero_alloc_shape
    (show initActuator exCfg exNames (DofIds.explicit [0, 1]) 1 = .ok exG
      from rfl)

/-- C6: if any configured name pattern (an entry of `dof_names_expr` or a
key of the stiffness or damping pattern-to-value maps) is not a
syntactically valid match expression, construction fails with a
`ConfigError`. -/
theorem invalid_pattern_fails {cfg : ActuatorBaseCfg} {full : List String}
    {envs : Nat} {p : String} (hp : parseRegex p = none)
    (hin : (∃ ps, cfg.dof_names_expr = .exprs ps ∧ p ∈ ps)
      ∨ (∃ es v, cfg.stiffness = some es ∧ (p, v) ∈ es)
      ∨ (∃ es v, cfg.damping = some es ∧ (p, v) ∈ es)) :
    ∃ e, constructGroup cfg full envs = .error e := by
  cases hres : resolve cfg.dof_names_expr full with
  | error e =>
    refine ⟨e, ?_⟩
    simp only [constructGroup]
    rw [hres]
  | ok x =>
    obtain ⟨names, ids⟩ := x
    have hne := resolve_ok_ne_nil hres
    rcases hin with ⟨ps, hsel, hmem⟩ | hbad
    · rw [hsel] at hres
      obtain ⟨rs, hrs⟩ := resolve_exprs_ok hres
      obtain ⟨r, hr⟩ := parseAll_ok_mem hrs p hmem
      rw [hp] at hr
      cases hr
    · have hgains : ∃ e, applyGains cfg.stiffness cfg.damping
          (enumFromN 0 names) (zerosMat envs names.length)
          (zerosMat envs names.length) = .error e := by
        rcases hbad with ⟨es, v, hS, hmem⟩ | ⟨es, v, hD, hmem⟩
        · exact applyGains_error_of_bad (enumFromN_ne_nil hne 0)
            (Or.inl ⟨es, hS, hmem⟩) hp _ _
        · exact applyGains_error_of_bad (enumFromN_ne_nil hne 0)
            (Or.inr ⟨es, hD, hmem⟩) hp _ _
      obtain ⟨e, he⟩ := hgains
      refine ⟨e, ?_⟩
      simp only [constructGroup]
      rw [hres]
      dsimp only
      exact initActuator_error_of_gains he

/-- C6 witness: a stiffness map keyed by the syntactically invalid pattern
`"("` aborts construction. -/
theorem invalid_pattern_fails_witness :
    ∃ e, constructGroup exCfgBad [("a")] 1 = .error e :=
  invalid_pattern_fails (show parseRegex ("(") = none from rfl)
    (Or.inr (Or.inl ⟨[(("("), some 1)], some 1, rfl,
      List.mem_cons_self _ _⟩))

/-- C7 counterexample: the claim says a negative configured limit makes
construction fail with a `ConfigError`, but the code performs no sign
check: construction succeeds and stores the negative limits verbatim. -/
theorem negative_limit_not_rejected_cex :
    constructGroup cfgNeg [("joint_a")] 1 = .ok gNeg
    ∧ gNeg.effort_limit = Limit.fin (-5)
    ∧ gNeg.velocity_limit = Limit.fin (-2) :=
  ⟨rfl, rfl, rfl⟩

/-- C7 amended: construction performs no sign check on configured limits:
with any configured effort and velocity limits (negative values included)
it succeeds or fails exactly as without them and merely stores the
configured values as the group's limits. -/
theorem negative_limit_no_check (cfg : ActuatorBaseCfg)
    (names : List String) (ids : DofIds) (envs : Nat) (v w : Rat) :
    initActuator (withLimits cfg v w) names ids envs
      = Except.map (storeLimits cfg v w)
          (initActuator cfg names ids envs) := by
  simp only [initActuator, withLimits, storeLimits]
  cases hap : applyGains cfg.stiffness cfg.damping (enumFromN 0 names)
      (zerosMat envs names.length) (zerosMat envs names.length) with
  | error e => rfl
  | ok sd =>
    obtain ⟨s, d⟩ := sd
    rfl

/-- C8: for every constructed actuator group, the joint indices are
unique, their count equals the number of joint names, and (the base class
defining no operation that writes them) the stored membership is the one
computed at construction. -/
theorem joint_set_invariant {cfg : ActuatorBaseCfg} {full : List String}
    {envs : Nat} {g : ActuatorBase}
    (h : constructGroup cfg full envs = .ok g) :
    (resolvedIndices g).Nodup
    ∧ (resolvedIndices g).length = g.dofNames.length := by
  obtain ⟨names, ids, hres, hinit⟩ := constructGroup_ok h
  obtain ⟨s, d, hap, hg⟩ := initActuator_ok hinit
  subst hg
  rcases resolve_ok_ids hres with ⟨hall, hnames⟩ | ⟨l, hid, hnd, hlen⟩
  · subst hall
    simp only [resolvedIndices, numJoints]
    exact ⟨List.nodup_range _, List.length_range _⟩
  · subst hid
    simp only [resolvedIndices, numJoints]
    exact ⟨hnd, hlen⟩

/-- C8 witness. -/
theorem joint_set_invariant_witness :
    (resolvedIndices exG).Nodup
    ∧ (resolvedIndices exG).length = exG.dofNames.length :=
  joint_set_invariant
    (show constructGroup exCfg exNames 1 = .ok exG from rfl)

/-- C9 counterexample: the claim says a sentinel-constructed group's
summary shows an explicit "all joints" marker in place of the index list,
but the code resolves the sentinel to `list(range(num_joints))` and prints
that list: the summary of a sentinel group contains no "all joints"
marker and does contain the rendered index list `[0, 1]`. -/
theorem summary_no_all_joints_marker_cex :
    constructGroup cfgAll [("ja"), ("jb")] 1 = .ok gAll
    ∧ strContainsB (strRepr gAll) ("all joints") = false
    ∧ strContainsB (strRepr gAll) (renderNatList [0, 1]) = true :=
  ⟨rfl, by decide, by decide⟩

/-- C9 amended: every group's summary contains the joint count, the
configured name-pattern expression, the resolved joint names, and the
resolved joint indices, where a sentinel group's indices are shown as the
explicit resolved list `range(num_joints)` rather than an "all joints"
marker. -/
theorem summary_lists_components (g : ActuatorBase) :
    strContains (strRepr g) (toString (numJoints g))
    ∧ strContains (strRepr g) (renderSelector g.cfg.dof_names_expr)
    ∧ strContains (strRepr g) (renderStrList g.dofNames)
    ∧ strContains (strRepr g) (renderNatList (resolvedIndices g)) := by
  unfold strRepr
  refine ⟨?_, ?_, ?_, ?_⟩
  · exact strContains_left _ _ (strContains_left _ _ (strContains_left _ _
      (strContains_left _ _ (strContains_left _ _ (strContains_left _ _
      (strContains_left _ _ (strContains_left _ _ (strContains_left _ _
      (strContains_left _ _ (strContains_right _ _
      (strContains_self _)))))))))))
  · exact strContains_left _ _ (strContains_left _ _ (strContains_left _ _
      (strContains_left _ _ (strContains_left _ _ (strContains_left _ _
      (strContains_left _ _ (strContains_right _ _
      (strContains_self _))))))))
  · exact strContains_left _ _ (strContains_left _ _ (strContains_left _ _
      (strContains_left _ _ (strContains_right _ _
      (strContains_self _)))))
  · exact strContains_left _ _ (strContains_right _ _
      (strContains_self _))

/-- C10: for every configuration, the computed_effort and applied_effort
buffers are identically the zero allocation immediately after
construction: the gain overlays and limit parsing never touch either
effort buffer. -/
theorem effort_buffers_untouched {cfg : ActuatorBaseCfg}
    {names : List String} {ids : DofIds} {envs : Nat} {g : ActuatorBase}
    (h : initActuator cfg names ids envs = .ok g) :
    g.computed_effort = zerosMat envs names.length
    ∧ g.applied_effort = zerosMat envs names.length := by
  obtain ⟨s, d, hap, hg⟩ := initActuator_ok h
  subst hg
  exact ⟨rfl, rfl⟩

/-- C10 witness: even with stiffness and damping maps configured, both
effort buffers stay zero. -/
theorem effort_buffers_untouched_witness :
    exG.computed_effort = zerosMat 1 exNames.length
    ∧ exG.applied_effort = zerosMat 1 exNames.length :=
  effort_buffers_untouched
    (show initActuator exCfg exNames (DofIds.explicit [0, 1]) 1 = .ok exG
      from rfl)

end Orbit
